import Mathlib

/-!
Verification development for the keyswarm gpg integration layer
(src/keyswarm/gpg_handler.py). Byte strings are modelled as `List Char`
(gpg output is ascii), the external gpg process is modelled by passing its
captured output streams as explicit arguments, and the filesystem effects
of `encrypt` are modelled as an association list from path to content.
-/

/-- Apostrophe character, written via its code point. -/
def apos : Char := Char.ofNat 39

/-- Newline character. -/
def nl : Char := Char.ofNat 10

/-- First line of a byte string: the longest newline-free prefix. In the
python source diagnostics are matched with re.match and patterns of the
form .*p1.*p2.*; the dot does not match a newline and re.match anchors at
position zero, so such a pattern can only ever match inside the first
line of the stream. -/
def firstLine (s : List Char) : List Char :=
  s.takeWhile (fun c => c != nl)

/-- Suffix strictly after the first (leftmost) occurrence of `p` in `s`,
or `none` when `p` does not occur in `s`. -/
def findAfter (p : List Char) : List Char → Option (List Char)
  | [] => if p.isPrefixOf [] then some [] else none
  | c :: rest =>
    if p.isPrefixOf (c :: rest) then some ((c :: rest).drop p.length)
    else findAfter p rest

/-- A list of plain substrings occurs in order inside `s`. Searching each
substring at its leftmost occurrence and continuing after it is complete
for this existence question. -/
def matchSeqAux : List (List Char) → List Char → Bool
  | [], _ => true
  | p :: ps, s =>
    match findAfter p s with
    | some rest => matchSeqAux ps rest
    | none => false

/-- Model of python re.match with a pattern of the shape .*p1.*p2...*
applied to a byte string: the plain substrings p1, p2, ... must occur in
order within the first line of the stream. -/
def re_match_star (pats : List (List Char)) (s : List Char) : Bool :=
  matchSeqAux pats (firstLine s)

/-! ## list_packets (gpg_handler.py lines 54-79): scanning of the
packet-listing output after the stderr error checks succeeded. -/

/-- Model of stdout.split with a newline separator, python semantics: a
trailing separator yields a trailing empty piece, the empty string yields
one empty piece. -/
def splitOnNlAux (acc : List Char) : List Char → List (List Char)
  | [] => [acc.reverse]
  | c :: rest =>
    if c = nl then acc.reverse :: splitOnNlAux [] rest
    else splitOnNlAux (c :: acc) rest

/-- Split a byte string on newlines, python split semantics. -/
def splitOnNl (s : List Char) : List (List Char) :=
  splitOnNlAux [] s

/-- Character class 0-9A-Fa-f of the keyid pattern. -/
def isHexDigit (c : Char) : Bool :=
  (decide (48 ≤ c.toNat) && decide (c.toNat ≤ 57)) ||
  (decide (65 ≤ c.toNat) && decide (c.toNat ≤ 70)) ||
  (decide (97 ≤ c.toNat) && decide (c.toNat ≤ 102))

/-- Literal part of the keyid capture group. -/
def keyidPat : List Char := ("keyid ").toList

/-- Whether the capture group of the pattern .*(keyid hex16).* can match
starting exactly at the head of `s`; when it can, the captured bytes: the
literal keyid tag followed by the sixteen hex digits. -/
def keyidAt (s : List Char) : Option (List Char) :=
  if keyidPat.isPrefixOf s && ((s.drop 6).take 16).length == 16
      && ((s.drop 6).take 16).all isHexDigit then
    some (keyidPat ++ (s.drop 6).take 16)
  else none

/-- Capture of the group in pattern .*(keyid hex16).* on one line: the
leading greedy dot-star makes the group match at the last position where
it can, so later positions take precedence. -/
def lineCapture : List Char → Option (List Char)
  | [] => keyidAt []
  | c :: rest =>
    match lineCapture rest with
    | some cap => some cap
    | none => keyidAt (c :: rest)

/-- Truthiness of re.match with the keyid pattern on one line: the group
can match at some position. -/
def lineMatches : List Char → Bool
  | [] => (keyidAt []).isSome
  | c :: rest => (keyidAt (c :: rest)).isSome || lineMatches rest

/-- Model of list_packets on the success path: split stdout on newlines,
and for every line on which the keyid regex matches, append the bytes of
its capture group, in line order. -/
def list_packets (stdout : List Char) : List (List Char) :=
  (splitOnNl stdout).foldl
    (fun acc line =>
      if lineMatches line then acc ++ [(lineCapture line).getD []] else acc)
    []

/-! ## decrypt (gpg_handler.py lines 82-118): outcome classification from
the captured stdout and stderr of the gpg subprocess. -/

/-- Possible outcomes of decrypt: the returned payload or the raised
error. -/
inductive DecOutcome where
  | payload (bytes : List Char)
  | noSecretKey
  | fileNotFound
  | isADirectory
  | invalidData
  | unknown (stderr : List Char)
deriving DecidableEq

/-- Stderr patterns of the no-secret-key check. -/
def nskPats : List (List Char) := [("decryption failed: No secret key").toList]

/-- Stderr patterns of the file-not-found check: the source uses the
single combined pattern .*can(apostrophe)t open.*No such file or
directory.* for decrypt. -/
def fnfPats : List (List Char) :=
  [("can").toList ++ [apos] ++ ("t open").toList,
   ("No such file or directory").toList]

/-- Stderr patterns of the Is-a-directory check. -/
def dirPats : List (List Char) := [("read error: Is a directory").toList]

/-- Stderr patterns of the invalid-OpenPGP-data check. -/
def invPats : List (List Char) := [("no valid OpenPGP data found").toList]

/-- Model of decrypt after the subprocess ran: a non-empty stdout is
returned as the payload; otherwise stderr is classified, in source
order. -/
def decrypt (stdout stderr : List Char) : DecOutcome :=
  if stdout ≠ [] then .payload stdout
  else if re_match_star nskPats stderr then .noSecretKey
  else if re_match_star fnfPats stderr then .fileNotFound
  else if re_match_star dirPats stderr then .isADirectory
  else if re_match_star invPats stderr then .invalidData
  else .unknown stderr

/-! ## encrypt (gpg_handler.py lines 121-161). The subprocess is invoked
with stderr merged into stdout; the merged output is a parameter. The
filesystem is an association list from path to file content; the check
path.exists(path.dirname(path_to_file)) is a directory-existence oracle
applied to the destination path. -/

/-- Possible outcomes of encrypt: the returned value or the raised
error. Both the pre-invocation parent-directory check and the
output-pattern check raise the same FileNotFoundError type. -/
inductive EncOutcome where
  | noRecipients
  | fileNotFound
  | noPublicKey
  | ok (payload : Option (List Char))
deriving DecidableEq

/-- Result of one encrypt call: its outcome, whether the external
process was spawned, and the filesystem afterwards. -/
structure EncResult where
  outcome : EncOutcome
  invoked : Bool
  fs : List (String × List Char)
deriving DecidableEq

/-- Open for binary write and write: the content at the path is fully
replaced, or created when absent. -/
def setFile (p : String) (content : List Char) (fs : List (String × List Char)) :
    List (String × List Char) :=
  if fs.any (fun e => e.1 == p) then
    fs.map (fun e => if e.1 == p then (p, content) else e)
  else fs ++ [(p, content)]

/-- Content stored at a path, when present. -/
def getFile (p : String) (fs : List (String × List Char)) : Option (List Char) :=
  (fs.find? (fun e => e.1 == p)).map Prod.snd

/-- Output pattern of the encrypt file-not-found check. -/
def nsfPat : List Char := ("No such file or directory").toList

/-- Output pattern of the encrypt no-public-key check. -/
def npkPat : List Char := ("No public key").toList

/-- Model of encrypt: recipients checked first, then the destination
parent directory, then the subprocess runs and its merged output is
pattern-checked; otherwise the output is written to the destination or
returned. -/
def encrypt (clear_text : List Char) (list_of_recipients : List String)
    (path_to_file : Option String) (parentExists : String → Bool)
    (backendOut : List Char) (fs : List (String × List Char)) : EncResult :=
  if list_of_recipients = [] then ⟨.noRecipients, false, fs⟩
  else if path_to_file.elim false (fun p => !parentExists p) then ⟨.fileNotFound, false, fs⟩
  else if re_match_star [nsfPat] backendOut then ⟨.fileNotFound, true, fs⟩
  else if re_match_star [npkPat] backendOut then ⟨.noPublicKey, true, fs⟩
  else
    match path_to_file with
    | some p => ⟨.ok none, true, setFile p backendOut fs⟩
    | none => ⟨.ok (some backendOut), true, fs⟩

/-! ## Recipient file input and output (gpg_handler.py lines 164-177 and
237-249), modelled at the level of the file content. -/

/-- Content written by write_gpg_id_file: every identifier followed by a
newline. -/
def write_gpg_id_file (list_of_gpg_ids : List (List Char)) : List Char :=
  list_of_gpg_ids.flatMap (fun key_id => key_id ++ [nl])

/-- Model of python readlines: split after every newline, keeping the
newline on each piece, with no empty final piece. -/
def readlinesAux (acc : List Char) : List Char → List (List Char)
  | [] => if acc = [] then [] else [acc.reverse]
  | c :: rest =>
    if c = nl then (acc.reverse ++ [nl]) :: readlinesAux [] rest
    else readlinesAux (c :: acc) rest

/-- Python readlines on a file content. -/
def readlines (s : List Char) : List (List Char) :=
  readlinesAux [] s

/-- Model of get_recipients_from_gpg_id: every line with all newlines
removed, in order. -/
def get_recipients_from_gpg_id (content : List Char) : List (List Char) :=
  (readlines content).map (fun line => line.filter (fun c => c != nl))

/-! ## get_binary (gpg_handler.py lines 15-50). The version outputs of
the two candidate binaries are parameters (as line lists); the lru_cache
of size one is explicit state. -/

/-- Major version parsed from the first output line per the anchored
pattern: the literal gpg version prefix, then a digit 1 or 2, then a
dot. -/
def version_major (line : List Char) : Option Char :=
  if line.take 12 = ("gpg (GnuPG) ").toList then
    match line.drop 12 with
    | c :: d :: _ => if (c == '1' || c == '2') && d == '.' then some c else none
    | _ => none
  else none

/-- Body of get_binary: query gpg, accept on major version two, fall
back to gpg2 on major version one, otherwise terminate the process
(modelled as `none`, which also covers the index error on empty output).
The second component counts the version queries spawned. -/
def get_binary_body (gpgOut gpg2Out : List (List Char)) : Option String × Nat :=
  match gpgOut.head? with
  | none => (none, 1)
  | some line =>
    match version_major line with
    | some c =>
      if c == '2' then (some "gpg", 1)
      else
        match gpg2Out.head? with
        | none => (none, 2)
        | some line2 =>
          match version_major line2 with
          | some c2 => if c2 == '2' then (some "gpg2", 2) else (none, 2)
          | none => (none, 2)
    | none => (none, 1)

/-- One call of the lru_cache wrapper around get_binary: on a hit the
cached value is returned with no subprocess run; on a miss the body runs
and a successful result is cached. Returns the call result, the cache
afterwards and the number of version queries spawned by this call. -/
def cached_get_binary (cache : Option String) (gpgOut gpg2Out : List (List Char)) :
    Option String × Option String × Nat :=
  match cache with
  | some v => (some v, some v, 0)
  | none =>
    match get_binary_body gpgOut gpg2Out with
    | (some v, q) => (some v, some v, q)
    | (none, q) => (none, none, q)

/-! ## recursive_reencrypt (gpg_handler.py lines 252-279). Directory
trees carry file names and named subtrees; file contents never move
between directories, so the walk of os.walk is a pure function of the
tree. The observable behaviour of one invocation is its ordered trace of
backend operations: every (possibly recursive) call of the function, and
every decrypt and encrypt it performs, with the arguments the source
passes. The cleartext recovered by decrypt is given by an oracle from
the file path, which is sound because re-encryption preserves
cleartext. -/

mutual
/-- A directory: its direct file names and its named subdirectories. -/
inductive FSTree where
  | mk (files : List String) (subdirs : FSForest)

/-- An ordered list of named subdirectories. -/
inductive FSForest where
  | nil
  | cons (name : String) (tree : FSTree) (rest : FSForest)
end

mutual
/-- Number of directories in a tree. -/
def FSTree.size : FSTree → Nat
  | .mk _ sds => 1 + sds.size

/-- Number of directories in a forest. -/
def FSForest.size : FSForest → Nat
  | .nil => 0
  | .cons _ c rest => c.size + rest.size
end

/-- Direct file names of a directory. -/
def FSTree.files : FSTree → List String
  | .mk fs _ => fs

/-- Subdirectories of a directory. -/
def FSTree.subdirs : FSTree → FSForest
  | .mk _ sds => sds

/-- Forest as a list of named trees. -/
def FSForest.toList : FSForest → List (String × FSTree)
  | .nil => []
  | .cons name c rest => (name, c) :: rest.toList

/-- Names of the trees of a forest. -/
def FSForest.names (f : FSForest) : List String :=
  f.toList.map Prod.fst

mutual
/-- Model of os.walk from a directory, topdown: the directory itself
first (with the empty relative path), then the full walk of each
subdirectory in order, each entry paired with its relative path. -/
def walkDirs : FSTree → List (List String × FSTree)
  | .mk fs sds => ([], .mk fs sds) :: walkForest sds

/-- Walk entries contributed by a forest. -/
def walkForest : FSForest → List (List String × FSTree)
  | .nil => []
  | .cons name c rest =>
    (walkDirs c).map (fun pc => (name :: pc.1, pc.2)) ++ walkForest rest
end

/-- Check path.exists of the .gpg-id entry directly inside a directory:
a file or a subdirectory of that name. -/
def hasGpgId (t : FSTree) : Bool :=
  t.files.contains ".gpg-id" || (t.subdirs.names).contains ".gpg-id"

/-- Python test file[-4:] == the gpg extension: the last four characters
exist and are the extension. -/
def isGpgName (f : String) : Bool :=
  f.toList.reverse.take 4 == ['g', 'p', 'g', '.']

/-- One entry of the trace of recursive_reencrypt: a call of the
function itself with its four arguments, a decrypt of a file, or an
encrypt of a file with the cleartext, recipient keys and home it is
given. -/
inductive GEvent where
  | call (dir : List String) (keys : List String) (gpgHome : Option String)
      (addParams : Option (List String))
  | dec (file : List String) (gpgHome : Option String) (addParams : Option (List String))
  | enc (file : List String) (clearText : List Char) (keys : List String)
      (gpgHome : Option String)
deriving DecidableEq

/-- Trace of recursive_reencrypt, fuelled: one unit of fuel per nesting
level of the recursion. Per the source: walk the whole tree; at the walk
entry equal to the call root, decrypt and re-encrypt every direct file
with the gpg extension in order; at every other walk entry, when no
.gpg-id exists directly inside it, call the function on it recursively,
passing the same keys but neither the gpg home nor the additional
parameters. -/
def rrAux (plain : List String → List Char) :
    Nat → List String → FSTree → List String → Option String → Option (List String) →
      List GEvent
  | 0, _, _, _, _, _ => []
  | fuel + 1, base, t, keys, gpg_home, additional_parameter =>
    .call base keys gpg_home additional_parameter ::
    (walkDirs t).flatMap (fun pn =>
      if pn.1 = [] then
        pn.2.files.flatMap (fun f =>
          if isGpgName f then
            [.dec (base ++ [f]) gpg_home additional_parameter,
             .enc (base ++ [f]) (plain (base ++ [f])) keys gpg_home]
          else [])
      else if hasGpgId pn.2 then []
      else rrAux plain fuel (base ++ pn.1) pn.2 keys none none)

/-- Trace of one invocation of recursive_reencrypt on the tree at
`base`. The nesting depth of the recursion is bounded by the number of
directories, so that much fuel is exact (proved by the stability lemmas
below). -/
def recursive_reencrypt (plain : List String → List Char) (base : List String)
    (t : FSTree) (list_of_keys : List String) (gpg_home : Option String)
    (additional_parameter : Option (List String)) : List GEvent :=
  rrAux plain t.size base t list_of_keys gpg_home additional_parameter

/-- Cleartext oracle for the concrete scenarios: every file decrypts to
the empty cleartext. -/
def plain0 : List String → List Char := fun _ => []

/-- Concrete store for the trust-boundary scenario: the root contains a
subdirectory sub owning a .gpg-id, and sub contains a subdirectory inner
(with no .gpg-id of its own) holding the ciphertext d.gpg. -/
def treeC1 : FSTree :=
  .mk [] (.cons "sub" (.mk [".gpg-id"] (.cons "inner" (.mk ["d.gpg"] .nil) .nil)) .nil)



/-! ## Structural lemmas about the walk and the fuelled recursion. -/

/-- Every tree has at least one directory. -/
theorem FSTree.size_pos (t : FSTree) : 0 < t.size := by
  cases t with
  | mk fs sds => simp only [FSTree.size]; omega

/-- A member tree of a forest is at most as large as the forest. -/
theorem size_le_of_mem_toList :
    ∀ (sds : FSForest) (nm : String) (c : FSTree), (nm, c) ∈ sds.toList → c.size ≤ sds.size
  | .nil, _, _, h => by simp [FSForest.toList] at h
  | .cons name t rest, nm, c, h => by
    simp only [FSForest.toList, List.mem_cons, Prod.mk.injEq] at h
    rcases h with ⟨_, hc⟩ | h
    · subst hc; simp only [FSForest.size]; omega
    · have := size_le_of_mem_toList rest nm c h
      simp only [FSForest.size]; omega

/-- The walk entries of a forest, as a flat map over its trees. -/
theorem walkForest_eq :
    ∀ sds : FSForest,
      walkForest sds =
        sds.toList.flatMap (fun nc => (walkDirs nc.2).map (fun pc => (nc.1 :: pc.1, pc.2)))
  | .nil => by simp [walkForest, FSForest.toList]
  | .cons name c rest => by
    simp [walkForest, FSForest.toList, walkForest_eq rest]

/-- The root itself is a walk entry. -/
theorem walk_self (t : FSTree) : ([], t) ∈ walkDirs t := by
  cases t with
  | mk fs sds => simp only [walkDirs]; exact List.mem_cons_self _ _

/-- Membership in the walk of a directory: the directory itself under
the empty relative path, or a walk entry of one of its subdirectories
under its name. -/
theorem mem_walkDirs {fs : List String} {sds : FSForest} {p : List String} {m : FSTree} :
    (p, m) ∈ walkDirs (.mk fs sds) ↔
      (p = [] ∧ m = .mk fs sds) ∨
      ∃ nm c, (nm, c) ∈ sds.toList ∧ ∃ q, (q, m) ∈ walkDirs c ∧ p = nm :: q := by
  constructor
  · intro h
    simp only [walkDirs, List.mem_cons] at h
    rcases h with heq | h
    · cases heq; exact Or.inl ⟨rfl, rfl⟩
    · rw [walkForest_eq] at h
      obtain ⟨nc, hnc, h2⟩ := List.mem_flatMap.mp h
      obtain ⟨pc, hpc, heq⟩ := List.mem_map.mp h2
      right
      refine ⟨nc.1, nc.2, by simpa using hnc, pc.1, ?_, ?_⟩
      · have hm : pc.2 = m := congrArg Prod.snd heq
        have : (pc.1, pc.2) ∈ walkDirs nc.2 := by simpa using hpc
        rwa [hm] at this
      · exact (congrArg Prod.fst heq).symm
  · intro h
    rcases h with ⟨hp, hm⟩ | ⟨nm, c, hmem, q, hq, hp⟩
    · subst hp; subst hm; exact walk_self _
    · simp only [walkDirs]
      apply List.mem_cons_of_mem
      rw [walkForest_eq]
      apply List.mem_flatMap.mpr
      refine ⟨(nm, c), hmem, ?_⟩
      apply List.mem_map.mpr
      exact ⟨(q, m), hq, by rw [hp]⟩

/-- Every walk entry is a tree no larger than the root, and strictly
smaller when its relative path is non-empty. -/
theorem walk_size :
    ∀ (n : Nat) (t : FSTree), t.size ≤ n → ∀ (p : List String) (m : FSTree),
      (p, m) ∈ walkDirs t → m.size ≤ t.size ∧ (p ≠ [] → m.size < t.size) := by
  intro n
  induction n using Nat.strong_induction_on with
  | _ n ih =>
    intro t ht p m hmem
    cases t with
    | mk fs sds =>
      rcases mem_walkDirs.mp hmem with ⟨hp, hm⟩ | ⟨nm, c, hc, q, hq, hp⟩
      · subst hm
        exact ⟨le_rfl, fun h => absurd hp h⟩
      · have hcsz : c.size ≤ sds.size := size_le_of_mem_toList sds nm c hc
        have hlt : c.size < (FSTree.mk fs sds).size := by
          simp only [FSTree.size]; omega
        have hcn : c.size < n := lt_of_lt_of_le hlt ht
        have hm := (ih c.size hcn c le_rfl q m hq).1
        exact ⟨by omega, fun _ => by omega⟩

/-- Size bound for a walk entry. -/
theorem walk_size_le {t m : FSTree} {p : List String} (h : (p, m) ∈ walkDirs t) :
    m.size ≤ t.size :=
  (walk_size t.size t le_rfl p m h).1

/-- Strict size bound for a proper walk entry. -/
theorem walk_size_lt {t m : FSTree} {p : List String} (h : (p, m) ∈ walkDirs t)
    (hp : p ≠ []) : m.size < t.size :=
  (walk_size t.size t le_rfl p m h).2 hp

/-- Walk entries compose: an entry of the walk of an entry is an entry
of the outer walk, under the concatenated relative path. -/
theorem walk_trans :
    ∀ (n : Nat) (t : FSTree), t.size ≤ n → ∀ (p : List String) (m : FSTree),
      (p, m) ∈ walkDirs t → ∀ (q : List String) (m2 : FSTree),
      (q, m2) ∈ walkDirs m → (p ++ q, m2) ∈ walkDirs t := by
  intro n
  induction n using Nat.strong_induction_on with
  | _ n ih =>
    intro t ht p m hmem q m2 hq
    cases t with
    | mk fs sds =>
      rcases mem_walkDirs.mp hmem with ⟨hp, hm⟩ | ⟨nm, c, hc, r, hr, hp⟩
      · subst hp; subst hm; simpa using hq
      · subst hp
        have hcsz : c.size ≤ sds.size := size_le_of_mem_toList sds nm c hc
        have hcn : c.size < n := by
          have hlt : c.size < (FSTree.mk fs sds).size := by
            simp only [FSTree.size]; omega
          exact lt_of_lt_of_le hlt ht
        have hstep := ih c.size hcn c le_rfl r m hr q m2 hq
        exact mem_walkDirs.mpr (Or.inr ⟨nm, c, hc, r ++ q, hstep, rfl⟩)

/-- Flat maps agree when the functions agree on every member. -/
theorem flatMap_congr_mem {α β : Type} {l : List α} {f g : α → List β}
    (h : ∀ a ∈ l, f a = g a) : l.flatMap f = l.flatMap g := by
  induction l with
  | nil => rfl
  | cons a l ih =>
    simp only [List.flatMap_cons]
    rw [h a (List.mem_cons_self a l), ih (fun x hx => h x (List.mem_cons_of_mem a hx))]

/-- A guarded flat map is a flat map over the filtered list. -/
theorem flatMap_if_eq_filter {α β : Type} (l : List α) (p : α → Bool) (f : α → List β) :
    l.flatMap (fun x => if p x then f x else []) = (l.filter p).flatMap f := by
  induction l with
  | nil => rfl
  | cons a l ih =>
    by_cases hp : p a
    · simp [List.flatMap_cons, List.filter_cons, hp, ih]
    · simp [List.flatMap_cons, List.filter_cons, hp, ih]

/-- The fuelled recursion is stable in the fuel once the fuel covers the
size of the tree. -/
theorem rrAux_congr :
    ∀ (fuel1 fuel2 : Nat) (t : FSTree), t.size ≤ fuel1 → t.size ≤ fuel2 →
      ∀ (plain : List String → List Char) (base : List String) (keys : List String)
        (g : Option String) (a : Option (List String)),
      rrAux plain fuel1 base t keys g a = rrAux plain fuel2 base t keys g a := by
  intro fuel1
  induction fuel1 using Nat.strong_induction_on with
  | _ fuel1 ih =>
    intro fuel2 t h1 h2 plain base keys g a
    have hpos := FSTree.size_pos t
    obtain ⟨k1, rfl⟩ : ∃ k1, fuel1 = k1 + 1 := ⟨fuel1 - 1, by omega⟩
    obtain ⟨k2, rfl⟩ : ∃ k2, fuel2 = k2 + 1 := ⟨fuel2 - 1, by omega⟩
    simp only [rrAux]
    congr 1
    apply flatMap_congr_mem
    intro pn hpn
    by_cases hroot : pn.1 = []
    · simp [hroot]
    · simp only [if_neg hroot]
      by_cases hg : hasGpgId pn.2
      · simp [hg]
      · simp only [hg, Bool.false_eq_true, if_false]
        have hlt : pn.2.size < t.size := by
          have : ((pn.1, pn.2) : List String × FSTree) ∈ walkDirs t := by simpa using hpn
          exact walk_size_lt this hroot
        exact ih k1 (by omega) k2 pn.2 (by omega) (by omega) plain (base ++ pn.1) keys none none

/-- Enough fuel computes the trace of the invocation. -/
theorem rrAux_eq_rr {fuel : Nat} {t : FSTree} (h : t.size ≤ fuel)
    (plain : List String → List Char) (base : List String) (keys : List String)
    (g : Option String) (a : Option (List String)) :
    rrAux plain fuel base t keys g a = recursive_reencrypt plain base t keys g a :=
  rrAux_congr fuel t.size t h le_rfl plain base keys g a

/-- One-step unfolding of the trace of recursive_reencrypt: the call
event, then per walk entry either the root file processing, nothing for
an entry owning a recipient file, or the full trace of the recursive
invocation on that entry. -/
theorem rr_eq (plain : List String → List Char) (base : List String) (t : FSTree)
    (keys : List String) (g : Option String) (a : Option (List String)) :
    recursive_reencrypt plain base t keys g a =
      GEvent.call base keys g a ::
      (walkDirs t).flatMap (fun pn =>
        if pn.1 = [] then
          pn.2.files.flatMap (fun f =>
            if isGpgName f then
              [GEvent.dec (base ++ [f]) g a,
               GEvent.enc (base ++ [f]) (plain (base ++ [f])) keys g]
            else [])
        else if hasGpgId pn.2 then []
        else recursive_reencrypt plain (base ++ pn.1) pn.2 keys none none) := by
  have hpos := FSTree.size_pos t
  rw [recursive_reencrypt]
  obtain ⟨m, hm⟩ : ∃ m, t.size = m + 1 := ⟨t.size - 1, by omega⟩
  rw [hm]
  simp only [rrAux]
  congr 1
  apply flatMap_congr_mem
  intro pn hpn
  by_cases hroot : pn.1 = []
  · simp [hroot]
  · simp only [if_neg hroot]
    by_cases hg : hasGpgId pn.2
    · simp [hg]
    · simp only [hg, Bool.false_eq_true, if_false]
      have hlt : pn.2.size < t.size := by
        have : ((pn.1, pn.2) : List String × FSTree) ∈ walkDirs t := by simpa using hpn
        exact walk_size_lt this hroot
      exact rrAux_eq_rr (by omega) plain (base ++ pn.1) keys none none

/-- Characterization of the call events of one invocation, fuelled
induction. -/
theorem rr_call_iff_aux :
    ∀ (n : Nat) (t : FSTree), t.size ≤ n →
      ∀ (plain : List String → List Char) (base : List String) (keys : List String)
        (g : Option String) (a : Option (List String))
        (dir keys2 : List String) (g2 : Option String) (a2 : Option (List String)),
      (GEvent.call dir keys2 g2 a2 ∈ recursive_reencrypt plain base t keys g a) ↔
        ((dir = base ∧ keys2 = keys ∧ g2 = g ∧ a2 = a) ∨
         (keys2 = keys ∧ g2 = none ∧ a2 = none ∧
          ∃ p m, (p, m) ∈ walkDirs t ∧ p ≠ [] ∧ hasGpgId m = false ∧ dir = base ++ p)) := by
  intro n
  induction n using Nat.strong_induction_on with
  | _ n ih =>
    intro t ht plain base keys g a dir keys2 g2 a2
    rw [rr_eq]
    constructor
    · intro h
      rcases List.mem_cons.mp h with heq | hmem
      · injection heq with h1 h2 h3 h4
        exact Or.inl ⟨h1, h2, h3, h4⟩
      · obtain ⟨pn, hpn, hev⟩ := List.mem_flatMap.mp hmem
        by_cases hroot : pn.1 = []
        · rw [if_pos hroot] at hev
          exfalso
          obtain ⟨f, _, hev2⟩ := List.mem_flatMap.mp hev
          by_cases hgf : isGpgName f
          · rw [if_pos hgf] at hev2
            simp at hev2
          · rw [if_neg hgf] at hev2
            simp at hev2
        · rw [if_neg hroot] at hev
          cases hg : hasGpgId pn.2 with
          | true => rw [hg] at hev; simp at hev
          | false =>
            rw [hg] at hev
            simp only [Bool.false_eq_true, if_false] at hev
            have hmemw : (pn.1, pn.2) ∈ walkDirs t := by simpa using hpn
            have hsz : pn.2.size < t.size := walk_size_lt hmemw hroot
            have hrec := (ih pn.2.size (by omega) pn.2 le_rfl plain (base ++ pn.1) keys
              none none dir keys2 g2 a2).mp hev
            rcases hrec with ⟨hd, hk, hg2, ha2⟩ | ⟨hk, hg2, ha2, q, m, hqm, hq, hgm, hd⟩
            · exact Or.inr ⟨hk, hg2, ha2, pn.1, pn.2, hmemw, hroot, hg, hd⟩
            · refine Or.inr ⟨hk, hg2, ha2, pn.1 ++ q, m,
                walk_trans t.size t le_rfl pn.1 pn.2 hmemw q m hqm,
                List.append_ne_nil_of_left_ne_nil hroot q, hgm, ?_⟩
              rw [hd, List.append_assoc]
    · intro h
      rcases h with ⟨rfl, rfl, rfl, rfl⟩ | ⟨rfl, rfl, rfl, p, m, hw, hp, hgm, rfl⟩
      · exact List.mem_cons_self _ _
      · apply List.mem_cons_of_mem
        apply List.mem_flatMap.mpr
        refine ⟨(p, m), hw, ?_⟩
        rw [if_neg hp, hgm]
        simp only [Bool.false_eq_true, if_false]
        rw [rr_eq]
        exact List.mem_cons_self _ _

/-- Claim C2, amended: the calls performed by one invocation of
recursive_reencrypt are the invocation itself, plus one call for every
walk entry of the tree with non-empty relative path that does not own a
recipient file, at any depth; every such recursive call receives the
same keys, no gpg home, and no additional parameters. -/
theorem recursive_reencrypt_call_characterization
    (plain : List String → List Char) (base : List String) (t : FSTree)
    (keys : List String) (g : Option String) (a : Option (List String))
    (dir keys2 : List String) (g2 : Option String) (a2 : Option (List String)) :
    (GEvent.call dir keys2 g2 a2 ∈ recursive_reencrypt plain base t keys g a) ↔
      ((dir = base ∧ keys2 = keys ∧ g2 = g ∧ a2 = a) ∨
       (keys2 = keys ∧ g2 = none ∧ a2 = none ∧
        ∃ p m, (p, m) ∈ walkDirs t ∧ p ≠ [] ∧ hasGpgId m = false ∧ dir = base ++ p)) :=
  rr_call_iff_aux t.size t le_rfl plain base keys g a dir keys2 g2 a2

/-- Claim C2, counterexample: under the claim, every recursive call
(of the invocation at the root and, recursively, of its nested
invocations) targets a direct subdirectory not owning a recipient file,
so on treeC1 no invocation is ever made on sub/inner: the only direct
subdirectory of the root is sub, and sub owns a .gpg-id, so no
invocation on sub (and hence none on sub/inner) is claimed to happen.
The actual trace of the invocation at the root nevertheless contains a
recursive call on sub/inner. -/
theorem recursive_reencrypt_calls_nondirect :
    GEvent.call ["sub", "inner"] ["K1", "K3"] none none ∈
      recursive_reencrypt plain0 [] treeC1 ["K1", "K3"] none none ∧
    (treeC1.subdirs).names = ["sub"] ∧
    hasGpgId (FSTree.mk [".gpg-id"] (.cons "inner" (.mk ["d.gpg"] .nil) .nil)) = true := by
  exact ⟨by decide, by decide, by decide⟩

/-- Claim C3: the trace of one invocation starts with the call event,
followed immediately by one decrypt of and one encrypt to the same path
for every direct file of the root whose name carries the gpg extension,
in directory order, pairwise sequential; the decrypt receives the gpg
home and additional parameters of the invocation and the encrypt
receives the recovered cleartext, the new keys and the gpg home. -/
theorem recursive_reencrypt_root_files (plain : List String → List Char)
    (base : List String) (t : FSTree) (keys : List String) (g : Option String)
    (a : Option (List String)) :
    ∃ rest, recursive_reencrypt plain base t keys g a =
      GEvent.call base keys g a ::
      (((t.files.filter isGpgName).flatMap (fun f =>
        [GEvent.dec (base ++ [f]) g a,
         GEvent.enc (base ++ [f]) (plain (base ++ [f])) keys g])) ++ rest) := by
  cases t with
  | mk fs sds =>
    rw [rr_eq]
    simp only [walkDirs, List.flatMap_cons, if_pos rfl, FSTree.files]
    simp only [flatMap_if_eq_filter]
    exact ⟨_, rfl⟩

/-- Claim C1, failing scenario: the subdirectory sub of the store owns a
recipient file, yet the invocation at the root re-encrypts the
ciphertext d.gpg inside the nested directory sub/inner to the new
keys. -/
theorem recursive_reencrypt_crosses_boundary :
    hasGpgId (FSTree.mk [".gpg-id"] (.cons "inner" (.mk ["d.gpg"] .nil) .nil)) = true ∧
    GEvent.enc ["sub", "inner", "d.gpg"] (plain0 ["sub", "inner", "d.gpg"]) ["K1", "K3"] none ∈
      recursive_reencrypt plain0 [] treeC1 ["K1", "K3"] none none := by
  exact ⟨by decide, by decide⟩

/-! ## Lemmas about the packet-listing scan. -/

/-- The regex matches a line exactly when the capture exists. -/
theorem lineMatches_eq : ∀ line : List Char, lineMatches line = (lineCapture line).isSome
  | [] => rfl
  | c :: rest => by
    simp only [lineMatches, lineCapture]
    cases h : lineCapture rest with
    | some cap => simp [lineMatches_eq rest, h]
    | none => simp [lineMatches_eq rest, h]

/-- The scanning fold collects exactly the captures of the matching
lines, in order, after the accumulator. -/
theorem list_packets_foldl (lines : List (List Char)) :
    ∀ acc : List (List Char),
      lines.foldl
        (fun acc line =>
          if lineMatches line then acc ++ [(lineCapture line).getD []] else acc) acc
        = acc ++ lines.filterMap lineCapture := by
  induction lines with
  | nil => intro acc; simp
  | cons line rest ih =>
    intro acc
    simp only [List.foldl_cons]
    cases h : lineCapture line with
    | some cap =>
      have hstep :
          (if lineMatches line then acc ++ [(some cap).getD []] else acc)
            = acc ++ [cap] := by
        rw [lineMatches_eq, h]; simp
      rw [hstep, ih (acc ++ [cap]), List.filterMap_cons_some h, List.append_assoc]
      rfl
    | none =>
      have hstep :
          (if lineMatches line then acc ++ [(none : Option (List Char)).getD []] else acc)
            = acc := by
        rw [lineMatches_eq, h]; simp
      rw [hstep, ih acc, List.filterMap_cons_none h]

/-- Shape of a successful capture at a fixed position. -/
theorem keyidAt_shape {s cap : List Char} (h : keyidAt s = some cap) :
    ∃ hex, cap = keyidPat ++ hex ∧ hex.length = 16 ∧ hex.all isHexDigit = true := by
  unfold keyidAt at h
  by_cases hc : (keyidPat.isPrefixOf s && ((s.drop 6).take 16).length == 16
      && ((s.drop 6).take 16).all isHexDigit) = true
  · rw [if_pos hc] at h
    have hcap : keyidPat ++ (s.drop 6).take 16 = cap := by injection h
    simp only [Bool.and_eq_true, beq_iff_eq] at hc
    exact ⟨(s.drop 6).take 16, hcap.symm, hc.1.2, hc.2⟩
  · rw [if_neg hc] at h
    exact absurd h (by simp)

/-- Shape of the capture of a line. -/
theorem lineCapture_shape :
    ∀ line cap : List Char, lineCapture line = some cap →
      ∃ hex, cap = keyidPat ++ hex ∧ hex.length = 16 ∧ hex.all isHexDigit = true
  | [], cap, h => keyidAt_shape h
  | c :: rest, cap, h => by
    simp only [lineCapture] at h
    cases h2 : lineCapture rest with
    | some cap2 =>
      rw [h2] at h
      have : cap2 = cap := by injection h
      exact this ▸ lineCapture_shape rest cap2 h2
    | none =>
      rw [h2] at h
      exact keyidAt_shape h

/-- Claim C4, amended: on the success path list_packets returns, per
line of the output on which the keyid pattern matches and in line order,
the bytes of the capture group; every such capture is the literal keyid
tag followed by exactly sixteen hexadecimal characters (the tag is part
of the returned token); lines without a match contribute nothing, and
output with no matching line yields the empty list rather than an
error. -/
theorem list_packets_spec (stdout : List Char) :
    list_packets stdout = (splitOnNl stdout).filterMap lineCapture ∧
    (∀ line cap, lineCapture line = some cap →
      ∃ hex, cap = keyidPat ++ hex ∧ hex.length = 16 ∧ hex.all isHexDigit = true) ∧
    ((∀ line ∈ splitOnNl stdout, lineCapture line = none) → list_packets stdout = []) := by
  have h1 : list_packets stdout = (splitOnNl stdout).filterMap lineCapture := by
    unfold list_packets
    rw [list_packets_foldl]
    rfl
  refine ⟨h1, fun line cap h => lineCapture_shape line cap h, fun h => ?_⟩
  rw [h1]
  exact List.filterMap_eq_nil_iff.mpr h

/-- Concrete gpg packet line used in the scenarios. -/
def keyidLine : List Char :=
  (":pubkey enc packet: version 3, algo 1, keyid 0123456789ABCDEF").toList

/-- Claim C4, counterexample: on a packet line naming the key
0123456789ABCDEF, list_packets returns the token with the literal keyid
tag still attached, not the bare sixteen hex characters. -/
theorem list_packets_keeps_keyid_tag :
    list_packets keyidLine = [("keyid 0123456789ABCDEF").toList] ∧
    list_packets keyidLine ≠ [("0123456789ABCDEF").toList] := by
  exact ⟨by decide, by decide⟩

/-- Witness for the amended claim C4 at the concrete packet line. -/
theorem list_packets_spec_witness :
    ∃ hex, ("keyid 0123456789ABCDEF").toList = keyidPat ++ hex ∧
      hex.length = 16 ∧ hex.all isHexDigit = true :=
  (list_packets_spec keyidLine).2.1 keyidLine (("keyid 0123456789ABCDEF").toList) (by decide)

/-! ## Lemmas about the decrypt classification. -/

/-- Claim C5, amended: a non-empty primary output short-circuits to the
payload even when diagnostics are present; otherwise the diagnostics are
classified with the no-secret-key pattern checked first, then the
combined can-not-open and no-such-file pattern, then the is-a-directory
pattern, then the invalid-data pattern, first match wins; diagnostics
matching none of the patterns yield the unknown outcome carrying the raw
diagnostic bytes. -/
theorem decrypt_classification_spec (stdout stderr : List Char) :
    (stdout ≠ [] → decrypt stdout stderr = .payload stdout) ∧
    (stdout = [] →
      ((decrypt stdout stderr = .noSecretKey) ↔ re_match_star nskPats stderr = true) ∧
      ((decrypt stdout stderr = .fileNotFound) ↔
        (re_match_star nskPats stderr = false ∧ re_match_star fnfPats stderr = true)) ∧
      ((decrypt stdout stderr = .isADirectory) ↔
        (re_match_star nskPats stderr = false ∧ re_match_star fnfPats stderr = false ∧
         re_match_star dirPats stderr = true)) ∧
      ((decrypt stdout stderr = .invalidData) ↔
        (re_match_star nskPats stderr = false ∧ re_match_star fnfPats stderr = false ∧
         re_match_star dirPats stderr = false ∧ re_match_star invPats stderr = true)) ∧
      ((decrypt stdout stderr = .unknown stderr) ↔
        (re_match_star nskPats stderr = false ∧ re_match_star fnfPats stderr = false ∧
         re_match_star dirPats stderr = false ∧ re_match_star invPats stderr = false))) := by
  constructor
  · intro h
    simp [decrypt, h]
  · intro h
    subst h
    cases h1 : re_match_star nskPats stderr <;>
      cases h2 : re_match_star fnfPats stderr <;>
        cases h3 : re_match_star dirPats stderr <;>
          cases h4 : re_match_star invPats stderr <;>
            simp [decrypt, h1, h2, h3, h4]

/-- Diagnostic line matching both the no-secret-key pattern and the
combined file-not-found pattern of decrypt. -/
def stderrBoth : List Char :=
  ("gpg: can").toList ++ [apos] ++
    ("t open x: No such file or directory; decryption failed: No secret key").toList

/-- Claim C5, counterexample: a diagnostic matching the file-not-found
pattern does not yield the file-not-found outcome when the no-secret-key
pattern also matches, because the source checks no-secret-key first. -/
theorem decrypt_nsk_wins_over_fnf :
    decrypt [] stderrBoth = .noSecretKey ∧
    re_match_star fnfPats stderrBoth = true ∧
    DecOutcome.noSecretKey ≠ DecOutcome.fileNotFound := by
  exact ⟨by decide, by decide, by decide⟩

/-- Witness for the amended claim C5 at a concrete diagnostic. -/
theorem decrypt_classification_spec_witness :
    decrypt [] stderrBoth = .noSecretKey ∧ decrypt ['x'] stderrBoth = .payload ['x'] :=
  ⟨((decrypt_classification_spec [] stderrBoth).2 rfl).1.mpr (by decide),
   (decrypt_classification_spec ['x'] stderrBoth).1 (by decide)⟩

/-! ## Lemmas about encrypt. -/

/-- Updating a present path rewrites its entry to the new content. -/
theorem find?_map_update (p : String) (c : List Char) :
    ∀ fs : List (String × List Char), fs.any (fun e => e.1 == p) = true →
      (fs.map (fun e => if e.1 == p then (p, c) else e)).find? (fun e => e.1 == p)
        = some (p, c) := by
  intro fs
  induction fs with
  | nil => intro h; simp at h
  | cons e es ih =>
    intro h
    cases he : (e.1 == p) with
    | true =>
      have hhead : (if (e.1 == p) = true then (p, c) else e) = (p, c) := by simp [he]
      simp only [List.map_cons, hhead]
      rw [List.find?_cons_of_pos _ (by simp)]
    | false =>
      have hhead : (if (e.1 == p) = true then (p, c) else e) = e := by simp [he]
      simp only [List.map_cons, hhead]
      rw [List.find?_cons_of_neg _ (by simp [he])]
      exact ih (by simpa [he] using h)

/-- Writing a file stores exactly the written content at the path. -/
theorem getFile_setFile (p : String) (c : List Char) (fs : List (String × List Char)) :
    getFile p (setFile p c fs) = some c := by
  unfold setFile getFile
  by_cases hany : fs.any (fun e => e.1 == p) = true
  · rw [if_pos hany, find?_map_update p c fs hany]
    rfl
  · rw [if_neg hany]
    rw [List.find?_append]
    have hany2 : fs.any (fun e => e.1 == p) = false := by
      cases h : fs.any (fun e => e.1 == p) with
      | true => exact absurd h hany
      | false => rfl
    have hnone : fs.find? (fun e => e.1 == p) = none := by
      apply List.find?_eq_none.mpr
      intro x hx
      have := List.any_eq_false.mp hany2 x hx
      simpa using this
    rw [hnone]
    simp [List.find?]

/-- Claim C6: once past the preconditions, encrypt classifies failure by
the merged primary output, the no-such-file pattern first, the
no-public-key pattern second; any other output is the ciphertext, fully
replacing the destination content with no payload returned when a
destination is given, and returned as raw bytes otherwise. -/
theorem encrypt_output_classification (clear_text : List Char)
    (recipients : List String) (dest : Option String) (parentExists : String → Bool)
    (backendOut : List Char) (fs : List (String × List Char))
    (hrec : recipients ≠ [])
    (hdest : ∀ p, dest = some p → parentExists p = true) :
    (re_match_star [nsfPat] backendOut = true →
      encrypt clear_text recipients dest parentExists backendOut fs
        = ⟨.fileNotFound, true, fs⟩) ∧
    (re_match_star [nsfPat] backendOut = false → re_match_star [npkPat] backendOut = true →
      encrypt clear_text recipients dest parentExists backendOut fs
        = ⟨.noPublicKey, true, fs⟩) ∧
    (re_match_star [nsfPat] backendOut = false → re_match_star [npkPat] backendOut = false →
      (∀ p, dest = some p →
        encrypt clear_text recipients dest parentExists backendOut fs
          = ⟨.ok none, true, setFile p backendOut fs⟩ ∧
        getFile p (setFile p backendOut fs) = some backendOut) ∧
      (dest = none →
        encrypt clear_text recipients dest parentExists backendOut fs
          = ⟨.ok (some backendOut), true, fs⟩)) := by
  have hpar : (dest.elim false fun p => !parentExists p) = false := by
    cases hd : dest with
    | none => rfl
    | some p => simp [Option.elim, hdest p hd]
  unfold encrypt
  rw [if_neg hrec, hpar]
  simp only [Bool.false_eq_true, if_false]
  refine ⟨fun h1 => by rw [h1]; simp, fun h1 h2 => by rw [h1, h2]; simp, fun h1 h2 => ?_⟩
  rw [h1, h2]
  simp only [Bool.false_eq_true, if_false]
  constructor
  · intro p hd
    subst hd
    exact ⟨rfl, getFile_setFile p backendOut fs⟩
  · intro hd
    subst hd
    rfl

/-- Claim C7, counterexample: with an empty recipient list and a
destination whose parent directory does not exist, encrypt raises the
no-recipients error, not the file-not-found error, because the recipient
check runs first. -/
theorem encrypt_empty_recipients_wins :
    encrypt [] [] (some "d/x") (fun _ => false) [] [("d/x", ['o'])]
      = ⟨.noRecipients, false, [("d/x", ['o'])]⟩ ∧
    EncOutcome.noRecipients ≠ EncOutcome.fileNotFound := by
  exact ⟨by decide, by decide⟩

/-- Claim C7, amended: encrypt with an empty recipient list always
raises the no-recipients error with no process spawned; encrypt with a
non-empty recipient list and a destination whose parent directory does
not exist always raises the file-not-found error with no process
spawned. -/
theorem encrypt_preconditions (clear_text : List Char) (recipients : List String)
    (dest : Option String) (parentExists : String → Bool) (backendOut : List Char)
    (fs : List (String × List Char)) :
    (recipients = [] →
      encrypt clear_text recipients dest parentExists backendOut fs
        = ⟨.noRecipients, false, fs⟩) ∧
    (recipients ≠ [] → ∀ p, dest = some p → parentExists p = false →
      encrypt clear_text recipients dest parentExists backendOut fs
        = ⟨.fileNotFound, false, fs⟩) := by
  constructor
  · intro h
    unfold encrypt
    rw [if_pos h]
  · intro hrec p hd hpar
    unfold encrypt
    rw [if_neg hrec, if_pos (by rw [hd]; simp [Option.elim, hpar])]

/-- Witness for the amended claim C7 at concrete inputs. -/
theorem encrypt_preconditions_witness :
    encrypt [] [] none (fun _ => true) [] [] = ⟨.noRecipients, false, []⟩ ∧
    encrypt [] ["K1"] (some "d/x") (fun _ => false) [] []
      = ⟨.fileNotFound, false, []⟩ :=
  ⟨(encrypt_preconditions [] [] none (fun _ => true) [] []).1 rfl,
   (encrypt_preconditions [] ["K1"] (some "d/x") (fun _ => false) [] []).2
     (by decide) "d/x" rfl rfl⟩

/-- Claim C10: every error outcome of encrypt leaves the filesystem
untouched; the destination file is only ever written on the success
path. -/
theorem encrypt_error_leaves_fs (clear_text : List Char) (recipients : List String)
    (dest : Option String) (parentExists : String → Bool) (backendOut : List Char)
    (fs : List (String × List Char))
    (herr : (encrypt clear_text recipients dest parentExists backendOut fs).outcome
        = .noRecipients ∨
      (encrypt clear_text recipients dest parentExists backendOut fs).outcome
        = .fileNotFound ∨
      (encrypt clear_text recipients dest parentExists backendOut fs).outcome
        = .noPublicKey) :
    (encrypt clear_text recipients dest parentExists backendOut fs).fs = fs := by
  unfold encrypt at herr ⊢
  by_cases h1 : recipients = []
  · rw [if_pos h1]
  · rw [if_neg h1] at herr ⊢
    by_cases h2 : (dest.elim false fun p => !parentExists p) = true
    · rw [if_pos h2]
    · rw [if_neg h2] at herr ⊢
      by_cases h3 : re_match_star [nsfPat] backendOut = true
      · rw [if_pos h3]
      · rw [if_neg h3] at herr ⊢
        by_cases h4 : re_match_star [npkPat] backendOut = true
        · rw [if_pos h4]
        · rw [if_neg h4] at herr
          cases hd : dest with
          | some p => rw [hd] at herr; simp at herr
          | none => rw [hd] at herr; simp at herr

/-- Witness for claim C10 at a concrete erroneous call. -/
theorem encrypt_error_leaves_fs_witness :
    (encrypt [] [] none (fun _ => true) [] [("f", ['o'])]).fs = [("f", ['o'])] :=
  encrypt_error_leaves_fs [] [] none (fun _ => true) [] [("f", ['o'])]
    (Or.inl (by decide))

/-- Witness for claim C6 at a concrete successful call. -/
theorem encrypt_output_classification_witness :
    encrypt [] ["K1"] (some "f") (fun _ => true) ("CIPHER").toList []
      = ⟨.ok none, true, [("f", ("CIPHER").toList)]⟩ :=
  (((encrypt_output_classification [] ["K1"] (some "f") (fun _ => true)
      (("CIPHER").toList) [] (by decide)
      (fun p hp => by cases hp; rfl)).2.2 (by decide) (by decide)).1 "f" rfl).1

/-! ## Lemmas about the recipient file. -/

/-- Readlines splits off one newline-terminated line. -/
theorem readlinesAux_line :
    ∀ (id : List Char) (acc rest : List Char), (∀ c ∈ id, c ≠ nl) →
      readlinesAux acc (id ++ nl :: rest) =
        ((acc.reverse ++ id) ++ [nl]) :: readlinesAux [] rest
  | [], acc, rest, _ => by
    simp [readlinesAux]
  | c :: cs, acc, rest, h => by
    have hc : c ≠ nl := h c (List.mem_cons_self c cs)
    have hunfold : readlinesAux acc ((c :: cs) ++ nl :: rest)
        = readlinesAux (c :: acc) (cs ++ nl :: rest) := by
      rw [List.cons_append]
      simp only [readlinesAux]
      rw [if_neg hc]
    rw [hunfold,
      readlinesAux_line cs (c :: acc) rest (fun x hx => h x (List.mem_cons_of_mem c hx))]
    simp [List.append_assoc]

/-- Claim C8: writing a recipient list (identifiers free of newlines)
and reading it back returns the original sequence, order and duplicates
preserved. -/
theorem gpg_id_roundtrip (ids : List (List Char))
    (h : ∀ i ∈ ids, ∀ c ∈ i, c ≠ nl) :
    get_recipients_from_gpg_id (write_gpg_id_file ids) = ids := by
  induction ids with
  | nil => rfl
  | cons id ids ih =>
    have hid : ∀ c ∈ id, c ≠ nl := h id (List.mem_cons_self id ids)
    have hrest : ∀ i ∈ ids, ∀ c ∈ i, c ≠ nl := fun i hi => h i (List.mem_cons_of_mem id hi)
    unfold write_gpg_id_file get_recipients_from_gpg_id readlines
    simp only [List.flatMap_cons]
    have hsplit : (id ++ [nl]) ++ ids.flatMap (fun key_id => key_id ++ [nl])
        = id ++ nl :: ids.flatMap (fun key_id => key_id ++ [nl]) := by
      simp
    rw [hsplit, readlinesAux_line id [] _ hid]
    simp only [List.reverse_nil, List.nil_append, List.map_cons]
    have hfilter : (id ++ [nl]).filter (fun c => c != nl) = id := by
      rw [List.filter_append]
      have h2 : id.filter (fun c => c != nl) = id :=
        List.filter_eq_self.mpr (fun c hc => by simpa using hid c hc)
      have h3 : [nl].filter (fun c => c != nl) = [] := by simp
      rw [h2, h3, List.append_nil]
    rw [hfilter]
    have htail := ih hrest
    unfold write_gpg_id_file get_recipients_from_gpg_id readlines at htail
    rw [htail]

/-- Witness for claim C8: a list with a duplicate identifier round
trips. -/
theorem gpg_id_roundtrip_witness :
    get_recipients_from_gpg_id
        (write_gpg_id_file [("K1").toList, ("K1").toList, ("K2").toList])
      = [("K1").toList, ("K1").toList, ("K2").toList] :=
  gpg_id_roundtrip [("K1").toList, ("K1").toList, ("K2").toList] (by decide)

/-! ## Lemmas about the memoized binary resolution. -/

/-- Claim C9: when a first call of the cached resolver (from the empty
cache) returns a binary, any second call returns the same binary from
the cache, changes nothing, and spawns zero version queries, whatever
the oracle answers at that point: the resolution body runs at most once
per process. -/
theorem get_binary_memoized (gpgOut gpg2Out : List (List Char)) (v : String)
    (cache1 : Option String) (q1 : Nat)
    (h : cached_get_binary none gpgOut gpg2Out = (some v, cache1, q1))
    (gpgOut2 gpg2Out2 : List (List Char)) :
    cached_get_binary cache1 gpgOut2 gpg2Out2 = (some v, cache1, 0) := by
  unfold cached_get_binary at h
  cases hb : get_binary_body gpgOut gpg2Out with
  | mk r q =>
    rw [hb] at h
    cases r with
    | none => simp at h
    | some w =>
      simp only [Prod.mk.injEq, Option.some.injEq] at h
      obtain ⟨hv, hc, _⟩ := h
      subst hv
      rw [← hc]
      rfl

/-- Witness for claim C9: the resolver accepts gpg reporting major
version two, and the second call is a pure cache hit. -/
theorem get_binary_memoized_witness :
    cached_get_binary (some "gpg") [] [] = (some "gpg", some "gpg", 0) :=
  get_binary_memoized [("gpg (GnuPG) 2.2.19").toList] [] "gpg" (some "gpg") 1
    (by decide) [] []
